import Mathlib

/-!
Verification of the markdown-to-HTML converter in
`07x20k-special-python-parser/repository_after/parser.py`.

Text is modeled as `List Char`.  Python stdlib helpers used by the code
(`html.escape`, `str.strip`, `str.lstrip`, `str.rstrip`, `str.splitlines`,
`str.find`, `str.startswith`, `str.isdigit`, `str.lower`) are embedded
first, then the three components of the converter: the recursive inline
span formatter `parse_inline`, the stack-based list assembler
`parse_list`, and the block dispatcher `parse_markdown`.

Loops of the source are embedded as fuel-indexed structural recursions so
that every definition is executable by the kernel.  For the inline
formatter the fuel provably does not matter as long as it exceeds the
length of the scanned text (`inlineGo_congr` below), which is the fuel
every call site supplies.  The top-level block dispatcher genuinely can
diverge (see the theorem for the termination claim), hence `parse_markdown`
returns an `Option`, with `none` modeling divergence of the Python loop.
-/

abbrev Str := List Char

/-- Whitespace as recognized by Python `str.strip()` / `str.isspace()`. -/
def isPySpace (c : Char) : Bool :=
  let n := c.toNat
  (9 ≤ n && n ≤ 13) || n == 32 || (28 ≤ n && n ≤ 31) || n == 0x85 || n == 0xa0 ||
  n == 0x1680 || (0x2000 ≤ n && n ≤ 0x200a) || n == 0x2028 || n == 0x2029 ||
  n == 0x202f || n == 0x205f || n == 0x3000

/-- Drop the longest prefix of characters satisfying `p` (Python `lstrip`). -/
def lstripP (p : Char → Bool) : Str → Str
  | [] => []
  | c :: s => if p c then lstripP p s else c :: s

/-- Drop the longest suffix of characters satisfying `p` (Python `rstrip`). -/
def rstripP (p : Char → Bool) (s : Str) : Str :=
  (lstripP p s.reverse).reverse

/-- Python `str.strip()` with no argument: trim whitespace on both sides. -/
def stripWs (s : Str) : Str := rstripP isPySpace (lstripP isPySpace s)

/-- Python `str.lstrip()` with no argument. -/
def lstripWs (s : Str) : Str := lstripP isPySpace s

/-- Python `str.lstrip(" ")`: trim leading space characters only. -/
def lstripSp (s : Str) : Str := lstripP (fun c => c == ' ') s

/-- Line boundaries recognized by Python `str.splitlines`. -/
def isLineBreak (c : Char) : Bool :=
  let n := c.toNat
  n == 10 || n == 13 || n == 11 || n == 12 || n == 28 || n == 29 || n == 30 ||
  n == 0x85 || n == 0x2028 || n == 0x2029

/-- Worker for `splitlines`; `cur` is the current line accumulated in reverse.
A `"\r\n"` pair counts as a single boundary; a trailing boundary produces no
final empty line. -/
def splitlinesGo (cur : Str) : Str → List Str
  | [] => [cur.reverse]
  | '\r' :: '\n' :: s2 =>
      cur.reverse :: (if s2.isEmpty then [] else splitlinesGo [] s2)
  | c :: s =>
    if isLineBreak c then
      cur.reverse :: (if s.isEmpty then [] else splitlinesGo [] s)
    else splitlinesGo (c :: cur) s

/-- Python `str.splitlines()`. -/
def splitlines (s : Str) : List Str :=
  if s.isEmpty then [] else splitlinesGo [] s

/-- Python `sep.join(parts)`. -/
def joinSep (sep : Str) : List Str → Str
  | [] => []
  | [x] => x
  | x :: xs => x ++ sep ++ joinSep sep xs

/-- Python `str.replace` for a single-character pattern `t`. -/
def replaceChar (t : Char) (r : Str) : Str → Str
  | [] => []
  | c :: s => (if c == t then r else [c]) ++ replaceChar t r s

/-- Embeds `html.escape` with its default `quote=True`, exactly as the five
sequential `str.replace` calls of the stdlib source (`&` first, then `<`,
`>`, `"`, `'`).  Every `escape` call of parser.py uses this default. -/
def escape (s : Str) : Str :=
  replaceChar (Char.ofNat 39) ("&#x27;".data) <|
  replaceChar '"' ("&quot;".data) <|
  replaceChar '>' ("&gt;".data) <|
  replaceChar '<' ("&lt;".data) <|
  replaceChar '&' ("&amp;".data) s

/-- Per-character description of `escape`: the five HTML-significant
characters map to entity forms, everything else is unchanged. -/
def escChar (c : Char) : Str :=
  if c = '&' then "&amp;".data
  else if c = '<' then "&lt;".data
  else if c = '>' then "&gt;".data
  else if c = '"' then "&quot;".data
  else if c = Char.ofNat 39 then "&#x27;".data
  else [c]

/-- ASCII lower-casing; agrees with Python `str.lower` on the ASCII range,
which is all the `javascript:` prefix comparison inspects. -/
def asciiLower (c : Char) : Char :=
  if decide ('A' ≤ c) && decide (c ≤ 'Z') then Char.ofNat (c.toNat + 32) else c

def isAsciiDigit (c : Char) : Bool :=
  decide ('0' ≤ c) && decide (c ≤ '9')

/-- Python `text.find(t, i)` relative to the suffix starting at `i`:
index of the first occurrence of character `t`, if any. -/
def findChar (t : Char) : Str → Option Nat
  | [] => none
  | c :: s => if c = t then some 0 else (findChar t s).map (· + 1)

/-- Python `text.find(dd, i)` for the two-character delimiter `a ++ b`:
index of the first position where it occurs as a contiguous substring. -/
def findSub2 (a b : Char) : Str → Option Nat
  | [] => none
  | [_] => none
  | c :: d :: s =>
    if c = a ∧ d = b then some 0 else (findSub2 a b (d :: s)).map (· + 1)

/-- The emphasis closing-delimiter scan of parser.py lines 66-73: find the
first occurrence of `t` that is not immediately followed by another `t`,
skipping each doubled occurrence together with its pair. -/
def findIso (t : Char) : Str → Option Nat
  | [] => none
  | [c] => if c = t then some 0 else none
  | c :: d :: s =>
    if c = t then
      if d = t then (findIso t s).map (· + 2) else some 0
    else (findIso t (d :: s)).map (· + 1)

/-- Substring occurrence test (used only to state claims about outputs). -/
def containsSub (pat : Str) : Str → Bool
  | [] => pat.isEmpty
  | c :: s => pat.isPrefixOf (c :: s) || containsSub pat s

/-- Number of positions at which `pat` occurs as a substring. -/
def countSub (pat : Str) : Str → Nat
  | [] => 0
  | c :: s => (if pat.isPrefixOf (c :: s) then 1 else 0) + countSub pat s

def MAX_INLINE_CHARS : Nat := 100000

/-- Scanning loop of `parse_inline` (parser.py lines 30-110), operating on
the suffix of the text that starts at the cursor.  `fuel` bounds the number
of iterations; every call site supplies more fuel than the length of the
scanned text, which suffices since every iteration consumes at least one
character (`inlineGo_congr` proves the result is then fuel-independent).
The recursive `parse_inline(inner)` calls of the source appear as the
length guard followed by `inlineGo` on the strictly shorter interior. -/
def inlineGo : Nat → Str → Str
  | 0, rest => escape rest
  | _ + 1, [] => []
  | f + 1, c :: rest1 =>
    if c = '`' then
      -- inline code span, lines 38-45
      match findChar '`' rest1 with
      | some k =>
          "<code>".data ++ escape (rest1.take k) ++ "</code>".data ++
            inlineGo f (rest1.drop (k + 1))
      | none => escape [c] ++ inlineGo f rest1
    else if (c = '*' ∨ c = '_') ∧ rest1.head? = some c then
      -- bold ** or __, lines 48-57
      match findSub2 c c rest1.tail with
      | some k =>
          "<strong>".data ++
            (let inner := rest1.tail.take k
             if inner.length > MAX_INLINE_CHARS then escape inner
             else inlineGo f inner) ++
          "</strong>".data ++ inlineGo f (rest1.tail.drop (k + 2))
      | none => escape [c, c] ++ inlineGo f rest1.tail
    else if c = '*' ∨ c = '_' then
      -- italic * or _, lines 60-81; the doubled-pair sub-check of lines
      -- 61-64 is unreachable here (the bold branch took it) but kept
      if rest1.head? = some c then escape [c, c] ++ inlineGo f rest1.tail
      else
        match findIso c rest1 with
        | some k =>
            "<em>".data ++
              (let inner := rest1.take k
               if inner.length > MAX_INLINE_CHARS then escape inner
               else inlineGo f inner) ++
            "</em>".data ++ inlineGo f (rest1.drop (k + 1))
        | none => escape [c] ++ inlineGo f rest1
    else if c = '[' then
      -- link [text](url), lines 84-104
      match findChar ']' rest1 with
      | some k =>
        match rest1.drop (k + 1) with
        | '(' :: rest2 =>
          match findChar ')' rest2 with
          | some m =>
            let label := rest1.take k
            let url := stripWs (rest2.take m)
            let flabel :=
              if label.length > MAX_INLINE_CHARS then escape label
              else inlineGo f label
            if ("javascript:".data).isPrefixOf (url.map asciiLower) then
              flabel ++ inlineGo f (rest2.drop (m + 1))
            else
              "<a href=\"".data ++ escape url ++ "\">".data ++ flabel ++
                "</a>".data ++ inlineGo f (rest2.drop (m + 1))
          | none => escape [c] ++ inlineGo f rest1
        | _ => escape [c] ++ inlineGo f rest1
      | none => escape [c] ++ inlineGo f rest1
    else escape [c] ++ inlineGo f rest1

/-- Embeds `parse_inline` (parser.py lines 26-110): the length safety valve
followed by the left-to-right scan. -/
def parse_inline (text : Str) : Str :=
  if text.length > MAX_INLINE_CHARS then escape text
  else inlineGo (text.length + 1) text

/-- Python `s.startswith(("- ", "* ", "+ "))`. -/
def bulletStart (s : Str) : Bool :=
  match s with
  | a :: b :: _ => (a == '-' || a == '*' || a == '+') && b == ' '
  | _ => false

/-- The ordered-item test of parser.py lines 118-121 and 142-147: a
non-empty run of digits, a `.`, then a space; returns the text after the
space.  The digits themselves are discarded. -/
def ordinalSplit (s : Str) : Option Str :=
  if (s.takeWhile isAsciiDigit).isEmpty then none
  else
    match s.drop (s.takeWhile isAsciiDigit).length with
    | '.' :: ' ' :: rest => some rest
    | _ => none

/-- Embeds `is_list_line` (parser.py lines 112-121). -/
def is_list_line (s : Str) : Bool :=
  match s with
  | [] => false
  | _ => bulletStart s || (ordinalSplit s).isSome

inductive LType
  | ul
  | ol
deriving DecidableEq

def ltOpen : LType → Str
  | .ul => "<ul>".data
  | .ol => "<ol>".data

def ltClose : LType → Str
  | .ul => "</ul>".data
  | .ol => "</ol>".data

/-- Marker classification of parser.py lines 138-149 on the space-stripped
line: bullet markers give an unordered item with the text after the two
marker characters, the ordinal pattern gives an ordered item; everything
else stops the assembler. -/
def classify (stripped : Str) : Option (LType × Str) :=
  if bulletStart stripped then some (LType.ul, stripped.drop 2)
  else
    match ordinalSplit stripped with
    | some content => some (LType.ol, content)
    | none => none

/-- Closing tags for all levels still on the stack (parser.py lines 179-180). -/
def closeAll : List (LType × Nat) → Str
  | [] => []
  | (t, _) :: st => ltClose t ++ closeAll st

/-- The dedent / type-change closing loop of parser.py lines 151-153:
emitted closing tags plus the remaining stack.  The head of the list is the
top of the stack. -/
def popCloses (lt : LType) (ind : Nat) : List (LType × Nat) → Str × List (LType × Nat)
  | [] => ([], [])
  | (t, d) :: st =>
    if ind < d ∨ (ind = d ∧ lt ≠ t) then
      let r := popCloses lt ind st
      (ltClose t ++ r.1, r.2)
    else ([], (t, d) :: st)

/-- Opening condition of parser.py line 155. -/
def needOpen (lt : LType) (ind : Nat) : List (LType × Nat) → Bool
  | [] => true
  | (t, d) :: _ => decide (lt ≠ t) || decide (d < ind)

/-- Stack after the closing loop and the conditional open (lines 151-157). -/
def openStack (lt : LType) (ind : Nat) (stack : List (LType × Nat)) : List (LType × Nat) :=
  let st1 := (popCloses lt ind stack).2
  if needOpen lt ind st1 then (lt, ind) :: st1 else st1

/-- Markup emitted by the closing loop and the conditional open. -/
def openHtml (lt : LType) (ind : Nat) (stack : List (LType × Nat)) : Str :=
  let r := popCloses lt ind stack
  r.1 ++ (if needOpen lt ind r.2 then ltOpen lt else [])

/-- Embeds the loop of `parse_list` (parser.py lines 124-182).  Returns the
emitted markup from the current line on (including the final stack
unwinding) together with the index of the first unconsumed line, or `none`
on fuel exhaustion.  Every iteration and every nested sublist call descends
one fuel level; fuel exceeding the number of remaining lines suffices, and
`parse_markdown` below always supplies that much.  The `base_indent`
parameter of the source is received but never read by the body, so it is
omitted here. -/
def hasNestedAt (lines : List Str) (i : Nat) (line : Str) : Bool :=
  match lines[i + 1]? with
  | none => false
  | some nl =>
      !(stripWs line).isEmpty &&
      decide (line.length - (lstripSp line).length <
              nl.length - (lstripSp nl).length) &&
      is_list_line (lstripSp nl)

def parse_listGo (lines : List Str) : Nat → Nat → List (LType × Nat) → Option (Str × Nat)
  | 0, _, _ => none
  | f + 1, i, stack =>
    match lines[i]? with
    | none => some (closeAll stack, i)
    | some line =>
      if (stripWs line).isEmpty then some (closeAll stack, i)
      else
        match classify (lstripSp line) with
        | none => some (closeAll stack, i)
        | some (lt, content) =>
          if hasNestedAt lines i line then
            match parse_listGo lines f (i + 1) [] with
            | none => none
            | some (nested, newI) =>
              match parse_listGo lines f newI
                  (openStack lt (line.length - (lstripSp line).length) stack) with
              | none => none
              | some (htmlRest, iEnd) =>
                some (openHtml lt (line.length - (lstripSp line).length) stack ++
                        "<li>".data ++ parse_inline content ++ nested ++
                        "</li>".data ++ htmlRest, iEnd)
          else
            match parse_listGo lines f (i + 1)
                (openStack lt (line.length - (lstripSp line).length) stack) with
            | none => none
            | some (htmlRest, iEnd) =>
              some (openHtml lt (line.length - (lstripSp line).length) stack ++
                      "<li>".data ++ parse_inline content ++ "</li>".data ++
                      htmlRest, iEnd)

/-- Python `line.startswith("` ++ "```" ++ `")` of parser.py lines 189 and 192:
the raw line, with no stripping of indentation. -/
def startsWithFence (l : Str) : Bool :=
  ("```".data).isPrefixOf l

/-- Index of the first line starting with a fence token, if any (the scan of
parser.py lines 190-194, relative to the lines after the opening fence). -/
def findFenceIdx : List Str → Option Nat
  | [] => none
  | l :: ls => if startsWithFence l then some 0 else (findFenceIdx ls).map (· + 1)

/-- Fenced block emission of parser.py lines 200-212: `line` is the opening
fence line, `body` the raw lines strictly between the fences. -/
def codeBlockOf (line : Str) (body : List Str) : Str :=
  "<pre><code".data ++
    (if (stripWs (line.drop 3)).isEmpty then []
     else " class=\"language-".data ++ escape (stripWs (line.drop 3)) ++ "\"".data) ++
  ">\n".data ++ joinSep ['\n'] (body.map escape) ++ "\n</code></pre>".data

/-- Count of leading `#` characters of the whitespace-stripped line
(parser.py lines 216-219). -/
def headingLevel (line : Str) : Nat :=
  ((lstripWs line).takeWhile (fun c => c == '#')).length

/-- Heading recognition condition of parser.py line 220: one to six hashes
immediately followed by a space. -/
def headingOk (line : Str) : Bool :=
  decide (1 ≤ headingLevel line) && decide (headingLevel line ≤ 6) &&
  ((lstripWs line).drop (headingLevel line)).head? == some ' '

/-- Heading text extraction of parser.py line 221: the remainder after the
hashes and space, with trailing `#` and space characters stripped, then
trimmed. -/
def headingText (line : Str) : Str :=
  stripWs (rstripP (fun c => c == '#' || c == ' ')
    ((lstripWs line).drop (headingLevel line + 1)))

/-- Heading emission of parser.py line 222. -/
def headingBlock (line : Str) : Str :=
  "<h".data ++ (Nat.repr (headingLevel line)).data ++ ">".data ++
  parse_inline (headingText line) ++
  "</h".data ++ (Nat.repr (headingLevel line)).data ++ ">".data

/-- The dispatcher's list-region trigger (parser.py lines 229-231): a
bullet marker, or any digit-initial space-stripped line containing a dot —
deliberately looser than what `parse_list` itself accepts. -/
def isListStart (line : Str) : Bool :=
  bulletStart (lstripSp line) ||
  (match lstripSp line with
   | c :: _ => isAsciiDigit c && (lstripSp line).contains '.'
   | [] => false)

/-- The run of consecutive non-blank lines absorbed into one paragraph
(parser.py lines 237-242). -/
def paraRun (lines : List Str) (i : Nat) : List Str :=
  (lines.drop i).takeWhile (fun l => !(stripWs l).isEmpty)

/-- Paragraph emission of parser.py line 243. -/
def paraBlock (run : List Str) : Str :=
  "<p>".data ++ parse_inline (joinSep [' '] (run.map stripWs)) ++ "</p>".data

/-- The main block-dispatch loop of `parse_markdown` (parser.py lines
185-246), producing the list of emitted blocks from line `i` on.  `none`
models divergence of the Python `while` loop: an iteration that does not
advance the cursor repeats forever (the loop state is just the cursor), and
with fuel `lines.length + 1` the fuel can only run out in that case. -/
def mainLoop (lines : List Str) : Nat → Nat → Option (List Str)
  | 0, _ => none
  | f + 1, i =>
    match lines[i]? with
    | none => some []
    | some line =>
      if startsWithFence line then
        match findFenceIdx (lines.drop (i + 1)) with
        | none =>
            -- no closing fence: the opening line degrades to a literal paragraph
            (mainLoop lines f (i + 1)).map
              (fun bs => ("<p>".data ++ escape line ++ "</p>".data) :: bs)
        | some k =>
            (mainLoop lines f (i + k + 2)).map
              (fun bs => codeBlockOf line ((lines.drop (i + 1)).take k) :: bs)
      else if headingOk line then
        (mainLoop lines f (i + 1)).map (fun bs => headingBlock line :: bs)
      else if isListStart line then
        match parse_listGo lines (2 * lines.length + 2) i [] with
        | none => none
        | some (html, i2) => (mainLoop lines f i2).map (fun bs => html :: bs)
      else if !(stripWs line).isEmpty then
        (mainLoop lines f (i + (paraRun lines i).length)).map
          (fun bs => paraBlock (paraRun lines i) :: bs)
      else mainLoop lines f (i + 1)

/-- Embeds `parse_markdown` (parser.py lines 16-248).  `none` models
divergence of the dispatcher loop; a terminating run yields `some` of the
emitted blocks joined with newlines. -/
def parse_markdown (md : Str) : Option Str :=
  if md.isEmpty || (stripWs md).isEmpty then some []
  else
    let lines := splitlines md
    (mainLoop lines (lines.length + 1) 0).map (joinSep ['\n'])

/-- The failure condition of the link recognizer (parser.py lines 85-92):
no `]`, or the `]` not immediately followed by `(`, or no `)` after that. -/
def linkIncomplete (rest1 : Str) : Bool :=
  match findChar ']' rest1 with
  | none => true
  | some k =>
    match rest1.drop (k + 1) with
    | '(' :: rest2 => (findChar ')' rest2).isNone
    | _ => true

/-- HTML entities that `escape` can produce. -/
def entityList : List Str :=
  ["&amp;".data, "&lt;".data, "&gt;".data, "&quot;".data, "&#x27;".data]

/-- The fixed attribute-free markup tokens the converter emits. -/
def plainTags : List Str :=
  ["<code>".data, "</code>".data, "<strong>".data, "</strong>".data,
   "<em>".data, "</em>".data, "</a>".data, "<p>".data, "</p>".data,
   "<ul>".data, "</ul>".data, "<ol>".data, "</ol>".data, "<li>".data,
   "</li>".data, "<pre><code>".data, "</code></pre>".data,
   "<h1>".data, "</h1>".data, "<h2>".data, "</h2>".data, "<h3>".data,
   "</h3>".data, "<h4>".data, "</h4>".data, "<h5>".data, "</h5>".data,
   "<h6>".data, "</h6>".data]

/-- Safe HTML output: a concatenation of plain characters (no raw `<`, `>`,
or `&`), complete entities, fixed markup tokens, and anchor / code-class
openers whose attribute value contains no quote and no angle bracket.  This
is the formal rendering of the spec's escaping invariant: input-origin
`<`, `>`, `&` never appear verbatim in content positions, and quote
characters never appear unescaped inside attribute values. -/
inductive SafeH : Str → Prop
  | nil : SafeH []
  | plain (c : Char) (s : Str) : c ≠ '<' → c ≠ '>' → c ≠ '&' →
      SafeH s → SafeH (c :: s)
  | entity (e : Str) (s : Str) : e ∈ entityList → SafeH s → SafeH (e ++ s)
  | tag (t : Str) (s : Str) : t ∈ plainTags → SafeH s → SafeH (t ++ s)
  | atag (url : Str) (s : Str) :
      (∀ c ∈ url, c ≠ '"' ∧ c ≠ '<' ∧ c ≠ '>') → SafeH s →
      SafeH ("<a href=\"".data ++ url ++ "\">".data ++ s)
  | codetag (lang : Str) (s : Str) :
      (∀ c ∈ lang, c ≠ '"' ∧ c ≠ '<' ∧ c ≠ '>') → SafeH s →
      SafeH ("<pre><code class=\"language-".data ++ lang ++ "\">".data ++ s)

/-- Everything `parse_list` reads from an individual line: blankness, the
space-indentation depth, the marker classification with its content, and
the lookahead list-item test.  The digits of an ordered-item marker are not
recoverable from this view. -/
def lineView (l : Str) : Bool × Nat × Option (LType × Str) × Bool :=
  ((stripWs l).isEmpty, l.length - (lstripSp l).length,
   classify (lstripSp l), is_list_line (lstripSp l))

/-! Basic lemmas about the embedded stdlib helpers. -/

lemma replaceChar_append (t : Char) (r : Str) (a b : Str) :
    replaceChar t r (a ++ b) = replaceChar t r a ++ replaceChar t r b := by
  induction a with
  | nil => rfl
  | cons c s ih => simp [replaceChar, ih]

lemma escape_nil : escape [] = [] := rfl

lemma escape_cons (c : Char) (s : Str) : escape (c :: s) = escChar c ++ escape s := by
  by_cases h1 : c = '&'
  · subst h1; rfl
  by_cases h2 : c = '<'
  · subst h2; rfl
  by_cases h3 : c = '>'
  · subst h3; rfl
  by_cases h4 : c = '"'
  · subst h4; rfl
  by_cases h5 : c = Char.ofNat 39
  · subst h5; rfl
  · simp only [escape, escChar, replaceChar, if_neg h1, if_neg h2, if_neg h3,
      if_neg h4, if_neg h5, beq_iff_eq, List.singleton_append, List.nil_append]

lemma escape_append (a b : Str) : escape (a ++ b) = escape a ++ escape b := by
  induction a with
  | nil => simp [escape_nil]
  | cons c s ih => simp [escape_cons, ih]

lemma entity_chars_ok : ∀ e ∈ entityList, ∀ x ∈ e, x ≠ '"' ∧ x ≠ '<' ∧ x ≠ '>' := by
  decide

lemma escChar_cases (c : Char) :
    escChar c ∈ entityList ∨
    (escChar c = [c] ∧ c ≠ '&' ∧ c ≠ '<' ∧ c ≠ '>' ∧ c ≠ '"' ∧ c ≠ Char.ofNat 39) := by
  unfold escChar
  by_cases h1 : c = '&'
  · left; simp only [if_pos h1]; decide
  by_cases h2 : c = '<'
  · left; simp only [if_neg h1, if_pos h2]; decide
  by_cases h3 : c = '>'
  · left; simp only [if_neg h1, if_neg h2, if_pos h3]; decide
  by_cases h4 : c = '"'
  · left; simp only [if_neg h1, if_neg h2, if_neg h3, if_pos h4]; decide
  by_cases h5 : c = Char.ofNat 39
  · left
    simp only [if_neg h1, if_neg h2, if_neg h3, if_neg h4, if_pos h5]
    decide
  · refine Or.inr ⟨?_, h1, h2, h3, h4, h5⟩
    simp only [if_neg h1, if_neg h2, if_neg h3, if_neg h4, if_neg h5]

lemma escape_mem {x : Char} {s : Str} (hx : x ∈ escape s) :
    x ≠ '"' ∧ x ≠ '<' ∧ x ≠ '>' := by
  induction s with
  | nil => simp [escape_nil] at hx
  | cons c t ih =>
    rw [escape_cons] at hx
    rcases List.mem_append.mp hx with h | h
    · rcases escChar_cases c with he | ⟨heq, _, hlt, hgt, hq, _⟩
      · exact entity_chars_ok _ he x h
      · rw [heq, List.mem_singleton] at h
        subst h; exact ⟨hq, hlt, hgt⟩
    · exact ih h

/-! Lemmas about the safe-output grammar. -/

lemma SafeH_append {a b : Str} (ha : SafeH a) (hb : SafeH b) : SafeH (a ++ b) := by
  induction ha with
  | nil => simpa using hb
  | plain c s h1 h2 h3 _ ih => exact SafeH.plain c (s ++ b) h1 h2 h3 ih
  | entity e s he _ ih =>
    rw [List.append_assoc]; exact SafeH.entity e (s ++ b) he ih
  | tag t s ht _ ih =>
    rw [List.append_assoc]; exact SafeH.tag t (s ++ b) ht ih
  | atag url s hu _ ih =>
    rw [List.append_assoc]
    exact SafeH.atag url (s ++ b) hu ih
  | codetag lang s hl _ ih =>
    rw [List.append_assoc]
    exact SafeH.codetag lang (s ++ b) hl ih

lemma SafeH_plain_prefix {p rest : Str}
    (hp : ∀ c ∈ p, c ≠ '<' ∧ c ≠ '>' ∧ c ≠ '&') (hr : SafeH rest) :
    SafeH (p ++ rest) := by
  induction p with
  | nil => simpa using hr
  | cons c s ih =>
    have hc := hp c (by simp)
    exact SafeH.plain c (s ++ rest) hc.1 hc.2.1 hc.2.2
      (ih (fun x hx => hp x (by simp [hx])))

lemma SafeH_atag_assoc {url s : Str}
    (hu : ∀ c ∈ url, c ≠ '"' ∧ c ≠ '<' ∧ c ≠ '>') (hs : SafeH s) :
    SafeH ("<a href=\"".data ++ (url ++ ("\">".data ++ s))) := by
  have h := SafeH.atag url s hu hs
  rw [List.append_assoc, List.append_assoc] at h
  exact h

lemma SafeH_codetag_assoc {lang s : Str}
    (hl : ∀ c ∈ lang, c ≠ '"' ∧ c ≠ '<' ∧ c ≠ '>') (hs : SafeH s) :
    SafeH ("<pre><code class=\"language-".data ++ (lang ++ ("\">".data ++ s))) := by
  have h := SafeH.codetag lang s hl hs
  rw [List.append_assoc, List.append_assoc] at h
  exact h

lemma SafeH_escape (s : Str) : SafeH (escape s) := by
  induction s with
  | nil => exact SafeH.nil
  | cons c t ih =>
    rw [escape_cons]
    rcases escChar_cases c with he | ⟨heq, h1, h2, h3, _, _⟩
    · exact SafeH.entity _ _ he ih
    · rw [heq]; exact SafeH.plain c _ h2 h3 h1 ih

lemma SafeH_inlineGo : ∀ f t, SafeH (inlineGo f t) := by
  intro f
  induction f with
  | zero => intro t; exact SafeH_escape t
  | succ f ih =>
    intro t
    cases t with
    | nil => exact SafeH.nil
    | cons c rest1 =>
      simp only [inlineGo]
      split
      · -- inline code
        split
        · simp only [List.append_assoc]
          exact SafeH.tag _ _ (by decide)
            (SafeH_append (SafeH_escape _) (SafeH.tag _ _ (by decide) (ih _)))
        · exact SafeH_append (SafeH_escape _) (ih _)
      · split
        · -- bold
          split
          · simp only [List.append_assoc]
            refine SafeH.tag _ _ (by decide)
              (SafeH_append ?_ (SafeH.tag _ _ (by decide) (ih _)))
            split
            · exact SafeH_escape _
            · exact ih _
          · exact SafeH_append (SafeH_escape _) (ih _)
        · split
          · -- italic
            split
            · exact SafeH_append (SafeH_escape _) (ih _)
            · split
              · simp only [List.append_assoc]
                refine SafeH.tag _ _ (by decide)
                  (SafeH_append ?_ (SafeH.tag _ _ (by decide) (ih _)))
                split
                · exact SafeH_escape _
                · exact ih _
              · exact SafeH_append (SafeH_escape _) (ih _)
          · split
            · -- link
              split
              · split
                · split
                  · split
                    · -- javascript: suppressed, only the label
                      refine SafeH_append ?_ (ih _)
                      split
                      · exact SafeH_escape _
                      · exact ih _
                    · -- anchor element
                      simp only [List.append_assoc]
                      refine SafeH_atag_assoc (fun x hx => escape_mem hx)
                        (SafeH_append ?_ (SafeH.tag _ _ (by decide) (ih _)))
                      split
                      · exact SafeH_escape _
                      · exact ih _
                  · exact SafeH_append (SafeH_escape _) (ih _)
                · exact SafeH_append (SafeH_escape _) (ih _)
              · exact SafeH_append (SafeH_escape _) (ih _)
            · -- default: escape one character
              exact SafeH_append (SafeH_escape _) (ih _)

lemma SafeH_parse_inline (t : Str) : SafeH (parse_inline t) := by
  unfold parse_inline
  split
  · exact SafeH_escape t
  · exact SafeH_inlineGo _ t

lemma ltClose_mem (t : LType) : ltClose t ∈ plainTags := by cases t <;> decide

lemma ltOpen_mem (t : LType) : ltOpen t ∈ plainTags := by cases t <;> decide

lemma SafeH_tag_only {t : Str} (h : t ∈ plainTags) : SafeH t := by
  have h2 := SafeH.tag t [] h SafeH.nil
  simpa using h2

lemma SafeH_closeAll (stack : List (LType × Nat)) : SafeH (closeAll stack) := by
  induction stack with
  | nil => exact SafeH.nil
  | cons p st ih =>
    obtain ⟨t, d⟩ := p
    exact SafeH_append (SafeH_tag_only (ltClose_mem t)) ih

lemma SafeH_popCloses (lt : LType) (ind : Nat) (stack : List (LType × Nat)) :
    SafeH (popCloses lt ind stack).1 := by
  induction stack with
  | nil => exact SafeH.nil
  | cons p st ih =>
    obtain ⟨t, d⟩ := p
    simp only [popCloses]
    split
    · exact SafeH_append (SafeH_tag_only (ltClose_mem t)) ih
    · exact SafeH.nil

lemma SafeH_openHtml (lt : LType) (ind : Nat) (stack : List (LType × Nat)) :
    SafeH (openHtml lt ind stack) := by
  unfold openHtml
  refine SafeH_append (SafeH_popCloses lt ind stack) ?_
  split
  · exact SafeH_tag_only (ltOpen_mem lt)
  · exact SafeH.nil

lemma SafeH_joinSep_nl : ∀ (bs : List Str), (∀ b ∈ bs, SafeH b) → SafeH (joinSep ['\n'] bs)
  | [], _ => SafeH.nil
  | [x], h => by
      simp only [joinSep]
      exact h x (by simp)
  | x :: y :: ys, h => by
      simp only [joinSep]
      refine SafeH_append (SafeH_append (h x (by simp)) ?_)
        (SafeH_joinSep_nl (y :: ys) ?_)
      · exact SafeH.plain '\n' [] (by decide) (by decide) (by decide) SafeH.nil
      · intro b hb
        exact h b (by simp [hb])

lemma SafeH_codeBlockOf (line : Str) (body : List Str) : SafeH (codeBlockOf line body) := by
  unfold codeBlockOf
  have hJ : SafeH (joinSep ['\n'] (body.map escape)) := by
    refine SafeH_joinSep_nl _ ?_
    intro b hb
    obtain ⟨a, _, rfl⟩ := List.mem_map.mp hb
    exact SafeH_escape a
  have hT : SafeH (joinSep ['\n'] (body.map escape) ++ "\n</code></pre>".data) :=
    SafeH_append hJ
      (SafeH.plain '\n' _ (by decide) (by decide) (by decide)
        (SafeH_tag_only (by decide)))
  split
  · simp only [List.append_assoc, List.nil_append]
    exact SafeH.tag ("<pre><code>".data) _ (by decide)
      (SafeH.plain '\n' _ (by decide) (by decide) (by decide) hT)
  · simp only [List.append_assoc]
    exact SafeH_codetag_assoc (fun x hx => escape_mem hx)
      (SafeH.plain '\n' _ (by decide) (by decide) (by decide) hT)

lemma SafeH_parse_listGo (lines : List Str) :
    ∀ f i stack r, parse_listGo lines f i stack = some r → SafeH r.1 := by
  intro f
  induction f with
  | zero => intro i stack r h; simp [parse_listGo] at h
  | succ f ih =>
    intro i stack r h
    rw [parse_listGo] at h
    split at h
    · injection h with h; subst h; exact SafeH_closeAll stack
    · split at h
      · injection h with h; subst h; exact SafeH_closeAll stack
      · split at h
        · injection h with h; subst h; exact SafeH_closeAll stack
        · split at h
          · split at h
            · exact absurd h (by simp)
            · rename_i nested newI heq1
              split at h
              · exact absurd h (by simp)
              · rename_i htmlRest iEnd heq2
                injection h with h; subst h
                exact SafeH_append (SafeH_append (SafeH_append (SafeH_append
                  (SafeH_append (SafeH_openHtml _ _ _) (SafeH_tag_only (by decide)))
                  (SafeH_parse_inline _)) (ih _ _ _ heq1)) (SafeH_tag_only (by decide)))
                  (ih _ _ _ heq2)
          · split at h
            · exact absurd h (by simp)
            · rename_i htmlRest iEnd heq2
              injection h with h; subst h
              exact SafeH_append (SafeH_append (SafeH_append
                (SafeH_append (SafeH_openHtml _ _ _) (SafeH_tag_only (by decide)))
                (SafeH_parse_inline _)) (SafeH_tag_only (by decide)))
                (ih _ _ _ heq2)

lemma SafeH_headingBlock (line : Str) (h : headingOk line = true) :
    SafeH (headingBlock line) := by
  unfold headingBlock
  unfold headingOk at h
  simp only [Bool.and_eq_true, decide_eq_true_eq] at h
  obtain ⟨⟨h1, h6⟩, -⟩ := h
  simp only [List.append_assoc]
  generalize headingLevel line = H at h1 h6 ⊢
  interval_cases H
  · exact SafeH.tag ("<h1>".data) _ (by decide)
      (SafeH_append (SafeH_parse_inline _) (SafeH_tag_only (by decide)))
  · exact SafeH.tag ("<h2>".data) _ (by decide)
      (SafeH_append (SafeH_parse_inline _) (SafeH_tag_only (by decide)))
  · exact SafeH.tag ("<h3>".data) _ (by decide)
      (SafeH_append (SafeH_parse_inline _) (SafeH_tag_only (by decide)))
  · exact SafeH.tag ("<h4>".data) _ (by decide)
      (SafeH_append (SafeH_parse_inline _) (SafeH_tag_only (by decide)))
  · exact SafeH.tag ("<h5>".data) _ (by decide)
      (SafeH_append (SafeH_parse_inline _) (SafeH_tag_only (by decide)))
  · exact SafeH.tag ("<h6>".data) _ (by decide)
      (SafeH_append (SafeH_parse_inline _) (SafeH_tag_only (by decide)))

lemma SafeH_mainLoop (lines : List Str) :
    ∀ f i bs, mainLoop lines f i = some bs → ∀ b ∈ bs, SafeH b := by
  intro f
  induction f with
  | zero => intro i bs h; simp [mainLoop] at h
  | succ f ih =>
    intro i bs h
    rw [mainLoop] at h
    split at h
    · injection h with h; subst h; intro b hb; simp at hb
    · split at h
      · split at h
        · rw [Option.map_eq_some'] at h
          obtain ⟨bs2, hbs2, rfl⟩ := h
          intro b hb
          rcases List.mem_cons.mp hb with rfl | hb2
          · exact SafeH_append (SafeH_append (SafeH_tag_only (by decide))
              (SafeH_escape _)) (SafeH_tag_only (by decide))
          · exact ih _ _ hbs2 b hb2
        · rw [Option.map_eq_some'] at h
          obtain ⟨bs2, hbs2, rfl⟩ := h
          intro b hb
          rcases List.mem_cons.mp hb with rfl | hb2
          · exact SafeH_codeBlockOf _ _
          · exact ih _ _ hbs2 b hb2
      · split at h
        · rw [Option.map_eq_some'] at h
          obtain ⟨bs2, hbs2, rfl⟩ := h
          intro b hb
          rcases List.mem_cons.mp hb with rfl | hb2
          · exact SafeH_headingBlock _ (by assumption)
          · exact ih _ _ hbs2 b hb2
        · split at h
          · split at h
            · exact absurd h (by simp)
            · rename_i html i2 heq2
              rw [Option.map_eq_some'] at h
              obtain ⟨bs2, hbs2, rfl⟩ := h
              intro b hb
              rcases List.mem_cons.mp hb with rfl | hb2
              · exact SafeH_parse_listGo lines _ _ _ _ heq2
              · exact ih _ _ hbs2 b hb2
          · split at h
            · rw [Option.map_eq_some'] at h
              obtain ⟨bs2, hbs2, rfl⟩ := h
              intro b hb
              rcases List.mem_cons.mp hb with rfl | hb2
              · exact SafeH_append (SafeH_append (SafeH_tag_only (by decide))
                  (SafeH_parse_inline _)) (SafeH_tag_only (by decide))
              · exact ih _ _ hbs2 b hb2
            · exact ih _ _ h

/-- C2: for every input, every output character that is not part of a
recognized construct's own markup is HTML-entity-escaped — the output lies
in the `SafeH` grammar, so raw `<`, `>`, `&` taken from the input never
appear verbatim in content positions, and quote characters never appear
unescaped inside attribute values (link href, code-block class). -/
theorem parse_markdown_output_safe (md : Str) (out : Str)
    (h : parse_markdown md = some out) : SafeH out := by
  unfold parse_markdown at h
  split at h
  · injection h with h; subst h; exact SafeH.nil
  · rw [Option.map_eq_some'] at h
    obtain ⟨bs, hbs, rfl⟩ := h
    exact SafeH_joinSep_nl bs (SafeH_mainLoop _ _ _ _ hbs)

/-! Unfolding equations for the individual recognizers of the inline scan. -/

lemma inlineGo_code_found (f k : Nat) (rest1 : Str)
    (hk : findChar '`' rest1 = some k) :
    inlineGo (f + 1) ('`' :: rest1) =
      "<code>".data ++ escape (rest1.take k) ++ "</code>".data ++
        inlineGo f (rest1.drop (k + 1)) := by
  simp [inlineGo, hk]

lemma inlineGo_code_none (f : Nat) (rest1 : Str)
    (hk : findChar '`' rest1 = none) :
    inlineGo (f + 1) ('`' :: rest1) = escape ['`'] ++ inlineGo f rest1 := by
  simp [inlineGo, hk]

lemma inlineGo_strong_found (f k : Nat) (c : Char) (rest2 : Str)
    (hc : c = '*' ∨ c = '_') (hk : findSub2 c c rest2 = some k) :
    inlineGo (f + 1) (c :: c :: rest2) =
      "<strong>".data ++
        (if (rest2.take k).length > MAX_INLINE_CHARS then escape (rest2.take k)
         else inlineGo f (rest2.take k)) ++
      "</strong>".data ++ inlineGo f (rest2.drop (k + 2)) := by
  rcases hc with rfl | rfl <;> simp [inlineGo, hk]

lemma inlineGo_strong_none (f : Nat) (c : Char) (rest2 : Str)
    (hc : c = '*' ∨ c = '_') (hk : findSub2 c c rest2 = none) :
    inlineGo (f + 1) (c :: c :: rest2) = escape [c, c] ++ inlineGo f rest2 := by
  rcases hc with rfl | rfl <;> simp [inlineGo, hk]

lemma inlineGo_em_found (f k : Nat) (c : Char) (rest1 : Str)
    (hc : c = '*' ∨ c = '_') (hnd : rest1.head? ≠ some c)
    (hk : findIso c rest1 = some k) :
    inlineGo (f + 1) (c :: rest1) =
      "<em>".data ++
        (if (rest1.take k).length > MAX_INLINE_CHARS then escape (rest1.take k)
         else inlineGo f (rest1.take k)) ++
      "</em>".data ++ inlineGo f (rest1.drop (k + 1)) := by
  rcases hc with rfl | rfl <;> simp [inlineGo, hk, hnd]

lemma inlineGo_em_none (f : Nat) (c : Char) (rest1 : Str)
    (hc : c = '*' ∨ c = '_') (hnd : rest1.head? ≠ some c)
    (hk : findIso c rest1 = none) :
    inlineGo (f + 1) (c :: rest1) = escape [c] ++ inlineGo f rest1 := by
  rcases hc with rfl | rfl <;> simp [inlineGo, hk, hnd]

lemma inlineGo_link_found (f k m : Nat) (rest1 rest2 : Str)
    (hk : findChar ']' rest1 = some k)
    (hd : rest1.drop (k + 1) = '(' :: rest2)
    (hm : findChar ')' rest2 = some m) :
    inlineGo (f + 1) ('[' :: rest1) =
      (if ("javascript:".data).isPrefixOf
            ((stripWs (rest2.take m)).map asciiLower) then
        (if (rest1.take k).length > MAX_INLINE_CHARS then escape (rest1.take k)
         else inlineGo f (rest1.take k)) ++ inlineGo f (rest2.drop (m + 1))
      else
        "<a href=\"".data ++ escape (stripWs (rest2.take m)) ++ "\">".data ++
          (if (rest1.take k).length > MAX_INLINE_CHARS then escape (rest1.take k)
           else inlineGo f (rest1.take k)) ++
          "</a>".data ++ inlineGo f (rest2.drop (m + 1))) := by
  simp [inlineGo, hk, hd, hm]

lemma inlineGo_link_fail (f : Nat) (rest1 : Str)
    (hfail : linkIncomplete rest1 = true) :
    inlineGo (f + 1) ('[' :: rest1) = escape ['['] ++ inlineGo f rest1 := by
  rcases hk : findChar ']' rest1 with _ | k
  · simp [inlineGo, hk]
  · rcases hd : rest1.drop (k + 1) with _ | ⟨d, rest2⟩
    · simp [inlineGo, hk, hd]
    · by_cases hdp : d = '('
      · subst hdp
        rcases hm : findChar ')' rest2 with _ | m
        · simp [inlineGo, hk, hd, hm]
        · unfold linkIncomplete at hfail
          simp [hk, hd, hm] at hfail
      · simp [inlineGo, hk, hd]
        split
        · simp_all
        · rfl

lemma inlineGo_default (f : Nat) (c : Char) (rest1 : Str)
    (h1 : c ≠ '`') (h3 : ¬(c = '*' ∨ c = '_')) (h5 : c ≠ '[') :
    inlineGo (f + 1) (c :: rest1) = escape [c] ++ inlineGo f rest1 := by
  simp [inlineGo, h1, h3, h5]

/-- The inline scan is fuel-independent once the fuel exceeds the length of
the scanned text: every iteration consumes at least one character, so the
embedded loop computes the same answer for every sufficient fuel.  This is
the faithfulness argument for the fuel-indexed embedding of the
`parse_inline` loop. -/
lemma inlineGo_congr : ∀ (n : Nat) (t : Str) (f g : Nat), t.length ≤ n →
    t.length < f → t.length < g → inlineGo f t = inlineGo g t := by
  intro n
  induction n with
  | zero =>
    intro t f g hn hf hg
    have ht : t = [] := List.eq_nil_of_length_eq_zero (Nat.le_zero.mp hn)
    subst ht
    obtain ⟨f2, rfl⟩ : ∃ f2, f = f2 + 1 := ⟨f - 1, by omega⟩
    obtain ⟨g2, rfl⟩ : ∃ g2, g = g2 + 1 := ⟨g - 1, by omega⟩
    rfl
  | succ n ih =>
    intro t f g hn hf hg
    obtain ⟨f2, rfl⟩ : ∃ f2, f = f2 + 1 := ⟨f - 1, by omega⟩
    obtain ⟨g2, rfl⟩ : ∃ g2, g = g2 + 1 := ⟨g - 1, by omega⟩
    cases t with
    | nil => rfl
    | cons c rest1 =>
      have hr : rest1.length ≤ n := by
        simp only [List.length_cons] at hn; omega
      have hrf : rest1.length < f2 := by
        simp only [List.length_cons] at hf; omega
      have hrg : rest1.length < g2 := by
        simp only [List.length_cons] at hg; omega
      by_cases h1 : c = '`'
      · subst h1
        rcases hk : findChar '`' rest1 with _ | k
        · rw [inlineGo_code_none f2 rest1 hk, inlineGo_code_none g2 rest1 hk,
            ih rest1 f2 g2 hr hrf hrg]
        · have hd1 : (rest1.drop (k + 1)).length ≤ n := by
            rw [List.length_drop]; omega
          have hd2 : (rest1.drop (k + 1)).length < f2 := by
            rw [List.length_drop]; omega
          have hd3 : (rest1.drop (k + 1)).length < g2 := by
            rw [List.length_drop]; omega
          rw [inlineGo_code_found f2 k rest1 hk, inlineGo_code_found g2 k rest1 hk,
            ih (rest1.drop (k + 1)) f2 g2 hd1 hd2 hd3]
      by_cases h2 : (c = '*' ∨ c = '_') ∧ rest1.head? = some c
      · obtain ⟨hc, hh⟩ := h2
        cases rest1 with
        | nil => simp at hh
        | cons c2 rest2 =>
          have hc2 : c2 = c := by
            simp only [List.head?_cons, Option.some.injEq] at hh
            exact hh
          subst hc2
          have hr2 : rest2.length ≤ n := by
            simp only [List.length_cons] at hn; omega
          have hr2f : rest2.length < f2 := by
            simp only [List.length_cons] at hf; omega
          have hr2g : rest2.length < g2 := by
            simp only [List.length_cons] at hg; omega
          rcases hk : findSub2 c2 c2 rest2 with _ | k
          · rw [inlineGo_strong_none f2 c2 rest2 hc hk,
              inlineGo_strong_none g2 c2 rest2 hc hk, ih rest2 f2 g2 hr2 hr2f hr2g]
          · have hinner :
                (if (rest2.take k).length > MAX_INLINE_CHARS then escape (rest2.take k)
                 else inlineGo f2 (rest2.take k)) =
                (if (rest2.take k).length > MAX_INLINE_CHARS then escape (rest2.take k)
                 else inlineGo g2 (rest2.take k)) := by
              by_cases hb : (rest2.take k).length > MAX_INLINE_CHARS
              · rw [if_pos hb, if_pos hb]
              · have hl : (rest2.take k).length ≤ rest2.length := by
                  rw [List.length_take]; omega
                rw [if_neg hb, if_neg hb,
                  ih (rest2.take k) f2 g2 (by omega) (by omega) (by omega)]
            have hd1 : (rest2.drop (k + 2)).length ≤ n := by
              rw [List.length_drop]; omega
            have hd2 : (rest2.drop (k + 2)).length < f2 := by
              rw [List.length_drop]; omega
            have hd3 : (rest2.drop (k + 2)).length < g2 := by
              rw [List.length_drop]; omega
            rw [inlineGo_strong_found f2 k c2 rest2 hc hk,
              inlineGo_strong_found g2 k c2 rest2 hc hk, hinner,
              ih (rest2.drop (k + 2)) f2 g2 hd1 hd2 hd3]
      by_cases h3 : c = '*' ∨ c = '_'
      · have hnd : rest1.head? ≠ some c := fun hh => h2 ⟨h3, hh⟩
        rcases hk : findIso c rest1 with _ | k
        · rw [inlineGo_em_none f2 c rest1 h3 hnd hk,
            inlineGo_em_none g2 c rest1 h3 hnd hk, ih rest1 f2 g2 hr hrf hrg]
        · have hinner :
              (if (rest1.take k).length > MAX_INLINE_CHARS then escape (rest1.take k)
               else inlineGo f2 (rest1.take k)) =
              (if (rest1.take k).length > MAX_INLINE_CHARS then escape (rest1.take k)
               else inlineGo g2 (rest1.take k)) := by
            by_cases hb : (rest1.take k).length > MAX_INLINE_CHARS
            · rw [if_pos hb, if_pos hb]
            · have hl : (rest1.take k).length ≤ rest1.length := by
                rw [List.length_take]; omega
              rw [if_neg hb, if_neg hb,
                ih (rest1.take k) f2 g2 (by omega) (by omega) (by omega)]
          have hd1 : (rest1.drop (k + 1)).length ≤ n := by
            rw [List.length_drop]; omega
          have hd2 : (rest1.drop (k + 1)).length < f2 := by
            rw [List.length_drop]; omega
          have hd3 : (rest1.drop (k + 1)).length < g2 := by
            rw [List.length_drop]; omega
          rw [inlineGo_em_found f2 k c rest1 h3 hnd hk,
            inlineGo_em_found g2 k c rest1 h3 hnd hk, hinner,
            ih (rest1.drop (k + 1)) f2 g2 hd1 hd2 hd3]
      by_cases h5 : c = '['
      · subst h5
        rcases hk : findChar ']' rest1 with _ | k
        · have hfail : linkIncomplete rest1 = true := by simp [linkIncomplete, hk]
          rw [inlineGo_link_fail f2 rest1 hfail, inlineGo_link_fail g2 rest1 hfail,
            ih rest1 f2 g2 hr hrf hrg]
        · rcases hd : rest1.drop (k + 1) with _ | ⟨d, rest2⟩
          · have hfail : linkIncomplete rest1 = true := by
              simp [linkIncomplete, hk, hd]
            rw [inlineGo_link_fail f2 rest1 hfail, inlineGo_link_fail g2 rest1 hfail,
              ih rest1 f2 g2 hr hrf hrg]
          · by_cases hdp : d = '('
            · subst hdp
              rcases hm : findChar ')' rest2 with _ | m
              · have hfail : linkIncomplete rest1 = true := by
                  simp [linkIncomplete, hk, hd, hm]
                rw [inlineGo_link_fail f2 rest1 hfail,
                  inlineGo_link_fail g2 rest1 hfail, ih rest1 f2 g2 hr hrf hrg]
              · have hlen2 : rest2.length + 1 ≤ rest1.length := by
                  have h := congrArg List.length hd
                  rw [List.length_drop] at h
                  simp only [List.length_cons] at h
                  omega
                have hinner :
                    (if (rest1.take k).length > MAX_INLINE_CHARS then
                       escape (rest1.take k)
                     else inlineGo f2 (rest1.take k)) =
                    (if (rest1.take k).length > MAX_INLINE_CHARS then
                       escape (rest1.take k)
                     else inlineGo g2 (rest1.take k)) := by
                  by_cases hb : (rest1.take k).length > MAX_INLINE_CHARS
                  · rw [if_pos hb, if_pos hb]
                  · have hl : (rest1.take k).length ≤ rest1.length := by
                      rw [List.length_take]; omega
                    rw [if_neg hb, if_neg hb,
                      ih (rest1.take k) f2 g2 (by omega) (by omega) (by omega)]
                have hd1 : (rest2.drop (m + 1)).length ≤ n := by
                  rw [List.length_drop]; omega
                have hd2 : (rest2.drop (m + 1)).length < f2 := by
                  rw [List.length_drop]; omega
                have hd3 : (rest2.drop (m + 1)).length < g2 := by
                  rw [List.length_drop]; omega
                rw [inlineGo_link_found f2 k m rest1 rest2 hk hd hm,
                  inlineGo_link_found g2 k m rest1 rest2 hk hd hm]
                by_cases hjs :
                    ("javascript:".data).isPrefixOf
                      ((stripWs (rest2.take m)).map asciiLower) = true
                · rw [if_pos hjs, if_pos hjs, hinner,
                    ih (rest2.drop (m + 1)) f2 g2 hd1 hd2 hd3]
                · rw [if_neg hjs, if_neg hjs, hinner,
                    ih (rest2.drop (m + 1)) f2 g2 hd1 hd2 hd3]
            · have hfail : linkIncomplete rest1 = true := by
                simp [linkIncomplete, hk, hd]
                split
                · simp_all
                · rfl
              rw [inlineGo_link_fail f2 rest1 hfail, inlineGo_link_fail g2 rest1 hfail,
                ih rest1 f2 g2 hr hrf hrg]
      · rw [inlineGo_default f2 c rest1 h1 h3 h5, inlineGo_default g2 c rest1 h1 h3 h5,
          ih rest1 f2 g2 hr hrf hrg]

/-- The guarded interior call of the scanner is exactly `parse_inline` once
the ambient fuel exceeds the interior length. -/
lemma inline_guard_eq (f : Nat) (t : Str) (h : t.length < f) :
    (if t.length > MAX_INLINE_CHARS then escape t else inlineGo f t) =
      parse_inline t := by
  unfold parse_inline
  by_cases hb : t.length > MAX_INLINE_CHARS
  · rw [if_pos hb, if_pos hb]
  · rw [if_neg hb, if_neg hb,
      inlineGo_congr t.length t f (t.length + 1) le_rfl h (by omega)]

lemma findChar_append_first (t : Char) (a b : Str) (ha : t ∉ a) :
    findChar t (a ++ t :: b) = some a.length := by
  induction a with
  | nil => simp [findChar]
  | cons c a2 ih =>
    have hc : ¬c = t := fun h => ha (by simp [h])
    have ih2 := ih (fun h => ha (List.mem_cons_of_mem c h))
    simp [findChar, hc, ih2]

lemma drop_len_cons (a : Str) (x : Char) (b : Str) :
    (a ++ x :: b).drop (a.length + 1) = b := by
  induction a with
  | nil => simp
  | cons c a2 ih => simp [ih]

lemma take_len (a b : Str) : (a ++ b).take a.length = a := by
  induction a with
  | nil => simp
  | cons c a2 ih => simp [ih]

/-- C1: for every link construct recognized by the inline span formatter
(label free of `]`, URL text free of `)`), if the URL after trimming
whitespace and case-folding begins with `javascript:`, no anchor element is
produced for that construct: the output is exactly the recursively
formatted label followed by the formatting of the remaining text, whatever
other characters the URL contains. -/
theorem inline_js_url_suppresses_anchor (label url rest : Str) (fuel : Nat)
    (hl : ']' ∉ label) (hu : ')' ∉ url)
    (hjs : ("javascript:".data).isPrefixOf ((stripWs url).map asciiLower) = true)
    (hfuel : ('[' :: (label ++ ']' :: '(' :: (url ++ ')' :: rest))).length < fuel) :
    inlineGo fuel ('[' :: (label ++ ']' :: '(' :: (url ++ ')' :: rest))) =
      parse_inline label ++ inlineGo (rest.length + 1) rest := by
  obtain ⟨f2, rfl⟩ : ∃ f2, fuel = f2 + 1 := ⟨fuel - 1, by omega⟩
  simp only [List.length_cons, List.length_append] at hfuel
  have hlab : label.length < f2 := by omega
  have hrest : rest.length < f2 := by omega
  have hk : findChar ']' (label ++ ']' :: ('(' :: (url ++ ')' :: rest))) =
      some label.length := findChar_append_first ']' label _ hl
  have hd : (label ++ ']' :: ('(' :: (url ++ ')' :: rest))).drop (label.length + 1) =
      '(' :: (url ++ ')' :: rest) := drop_len_cons label _ _
  have hm : findChar ')' (url ++ ')' :: rest) = some url.length :=
    findChar_append_first ')' url _ hu
  rw [inlineGo_link_found f2 label.length url.length _ _ hk hd hm]
  rw [take_len label (']' :: ('(' :: (url ++ ')' :: rest)))]
  rw [take_len url (')' :: rest)]
  rw [drop_len_cons url ')' rest]
  rw [if_pos hjs]
  rw [inline_guard_eq f2 label hlab]
  rw [inlineGo_congr rest.length rest f2 (rest.length + 1) le_rfl hrest (by omega)]

theorem inline_js_url_suppresses_anchor_witness :
    inlineGo 27 ('[' :: ("bad".data ++ ']' :: '(' ::
        ("javascript:alert(1".data ++ ')' :: (")".data)))) =
      parse_inline ("bad".data) ++ inlineGo ((")".data).length + 1) (")".data) :=
  inline_js_url_suppresses_anchor ("bad".data) ("javascript:alert(1".data)
    (")".data) 27 (by decide) (by decide) (by decide) (by decide)

/-- C4 counterexample: the escaping step used in content positions does not
leave the quote character unchanged — it produces `&quot;`, so the claim
that only `&`, `<`, `>` are replaced is false at the input `"`. -/
theorem escape_quote_counterexample :
    parse_inline ['"'] = "&quot;".data ∧ parse_inline ['"'] ≠ ['"'] := by
  constructor <;> decide

/-- C4 (amended): the content-position escaping step rewrites its input
character by character, replacing exactly the five characters `&`, `<`,
`>`, `"`, `'` by their entity forms and leaving every other character
unchanged. -/
theorem escape_pointwise :
    (∀ s, escape s = (s.map escChar).flatten) ∧
    (∀ c, c ≠ '&' → c ≠ '<' → c ≠ '>' → c ≠ '"' → c ≠ Char.ofNat 39 →
       escChar c = [c]) ∧
    escChar '&' = "&amp;".data ∧ escChar '<' = "&lt;".data ∧
    escChar '>' = "&gt;".data ∧ escChar '"' = "&quot;".data ∧
    escChar (Char.ofNat 39) = "&#x27;".data := by
  refine ⟨?_, ?_, by decide, by decide, by decide, by decide, by decide⟩
  · intro s
    induction s with
    | nil => rfl
    | cons c t ih => rw [escape_cons, ih]; simp
  · intro c h1 h2 h3 h4 h5
    simp [escChar, h1, h2, h3, h4, h5]

theorem escape_pointwise_witness : escChar 'x' = ['x'] :=
  escape_pointwise.2.1 'x' (by decide) (by decide) (by decide) (by decide)
    (by decide)

/-- C5: every opening delimiter with no valid matching close renders as
literal escaped text and the scan resumes right after it: an unmatched
backtick, an unmatched `**`/`__` pair, an unmatched single `*`/`_`, an
incomplete link bracket, and an opening code fence with no closing fence
line (which becomes a literal escaped paragraph). -/
theorem unclosed_delimiters_render_literal :
    (∀ f rest1, findChar '`' rest1 = none →
       inlineGo (f + 1) ('`' :: rest1) = escape ['`'] ++ inlineGo f rest1) ∧
    (∀ f c rest2, (c = '*' ∨ c = '_') → findSub2 c c rest2 = none →
       inlineGo (f + 1) (c :: c :: rest2) = escape [c, c] ++ inlineGo f rest2) ∧
    (∀ f c rest1, (c = '*' ∨ c = '_') → rest1.head? ≠ some c →
       findIso c rest1 = none →
       inlineGo (f + 1) (c :: rest1) = escape [c] ++ inlineGo f rest1) ∧
    (∀ f rest1, linkIncomplete rest1 = true →
       inlineGo (f + 1) ('[' :: rest1) = escape ['['] ++ inlineGo f rest1) ∧
    (∀ lines f i line, lines[i]? = some line → startsWithFence line = true →
       findFenceIdx (lines.drop (i + 1)) = none →
       mainLoop lines (f + 1) i =
         (mainLoop lines f (i + 1)).map
           (fun bs => ("<p>".data ++ escape line ++ "</p>".data) :: bs)) := by
  refine ⟨fun f r h => inlineGo_code_none f r h,
    fun f c r hc h => inlineGo_strong_none f c r hc h,
    fun f c r hc hh h => inlineGo_em_none f c r hc hh h,
    fun f r h => inlineGo_link_fail f r h, ?_⟩
  intro lines f i line hget hfence hnone
  simp [mainLoop, hget, hfence, hnone]

theorem unclosed_delimiters_render_literal_witness :
    (inlineGo 3 ('`' :: ("ab".data)) = escape ['`'] ++ inlineGo 2 ("ab".data)) ∧
    (inlineGo 3 ('*' :: '*' :: ("a".data)) =
      escape ['*', '*'] ++ inlineGo 2 ("a".data)) ∧
    (inlineGo 2 ('_' :: ("a".data)) = escape ['_'] ++ inlineGo 1 ("a".data)) ∧
    (inlineGo 3 ('[' :: ("ab".data)) = escape ['['] ++ inlineGo 2 ("ab".data)) ∧
    (mainLoop [("```x".data)] 2 0 =
      (mainLoop [("```x".data)] 1 1).map
        (fun bs => ("<p>".data ++ escape ("```x".data) ++ "</p>".data) :: bs)) :=
  ⟨unclosed_delimiters_render_literal.1 2 ("ab".data) (by decide),
   unclosed_delimiters_render_literal.2.1 2 '*' ("a".data) (by decide) (by decide),
   unclosed_delimiters_render_literal.2.2.1 1 '_' ("a".data) (by decide)
     (by decide) (by decide),
   unclosed_delimiters_render_literal.2.2.2.1 2 ("ab".data) (by decide),
   unclosed_delimiters_render_literal.2.2.2.2 [("```x".data)] 1 0 ("```x".data)
     (by decide) (by decide) (by decide)⟩

lemma findIso_get (c : Char) : ∀ (n : Nat) (s : Str), s.length ≤ n →
    ∀ (k : Nat), findIso c s = some k →
    s[k]? = some c ∧ s[k + 1]? ≠ some c ∧ Even ((s.take k).count c) := by
  intro n
  induction n with
  | zero =>
    intro s hs k h
    have hnil : s = [] := List.eq_nil_of_length_eq_zero (Nat.le_zero.mp hs)
    subst hnil
    simp [findIso] at h
  | succ n ih =>
    intro s hs k h
    cases s with
    | nil => simp [findIso] at h
    | cons x rest =>
      cases rest with
      | nil =>
        by_cases hx : x = c
        · simp only [findIso, if_pos hx] at h
          injection h with h
          subst h
          simp [hx]
        · simp only [findIso, if_neg hx] at h
          exact absurd h (by simp)
      | cons d s2 =>
        have hs2 : s2.length ≤ n := by
          simp only [List.length_cons] at hs; omega
        have hds2 : (d :: s2).length ≤ n := by
          simp only [List.length_cons] at hs ⊢; omega
        by_cases hx : x = c
        · by_cases hd : d = c
          · simp only [findIso, if_pos hx, if_pos hd, Option.map_eq_some'] at h
            obtain ⟨k2, hk2, rfl⟩ := h
            obtain ⟨h1, h2, h3⟩ := ih s2 hs2 k2 hk2
            refine ⟨by simpa using h1, by simpa using h2, ?_⟩
            rw [Nat.even_iff] at h3 ⊢
            simp [List.take_succ_cons, List.count_cons, hx, hd]
            omega
          · simp only [findIso, if_pos hx, if_neg hd] at h
            injection h with h
            subst h
            refine ⟨by simp [hx], by simp [hd], by simp⟩
        · simp only [findIso, if_neg hx, Option.map_eq_some'] at h
          obtain ⟨k2, hk2, rfl⟩ := h
          obtain ⟨h1, h2, h3⟩ := ih (d :: s2) hds2 k2 hk2
          refine ⟨by simpa using h1, by simpa using h2, ?_⟩
          rw [Nat.even_iff] at h3 ⊢
          simp [List.take_succ_cons, List.count_cons, hx]
          omega

/-- C9: at a single `*` or `_` that is not immediately doubled, the scanner
looks for an isolated closing occurrence of the same delimiter — skipping
every doubled occurrence together with its pair, so the number of delimiter
characters strictly before the close is even — and on success wraps the
recursively formatted interior in an emphasis element and resumes past the
close; with no isolated close the single character is escaped literally and
the cursor advances by one. -/
theorem emphasis_single_delimiter_scan (fuel : Nat) (c : Char) (rest1 : Str)
    (hc : c = '*' ∨ c = '_') (hnd : rest1.head? ≠ some c)
    (hfuel : rest1.length < fuel) :
    (∀ k, findIso c rest1 = some k →
       inlineGo (fuel + 1) (c :: rest1) =
         "<em>".data ++ parse_inline (rest1.take k) ++ "</em>".data ++
           inlineGo ((rest1.drop (k + 1)).length + 1) (rest1.drop (k + 1)) ∧
       rest1[k]? = some c ∧ rest1[k + 1]? ≠ some c ∧
       Even ((rest1.take k).count c)) ∧
    (findIso c rest1 = none →
       inlineGo (fuel + 1) (c :: rest1) =
         escape [c] ++ inlineGo (rest1.length + 1) rest1) := by
  constructor
  · intro k hk
    refine ⟨?_, findIso_get c rest1.length rest1 le_rfl k hk⟩
    rw [inlineGo_em_found fuel k c rest1 hc hnd hk]
    rw [inline_guard_eq fuel (rest1.take k) (by rw [List.length_take]; omega)]
    rw [inlineGo_congr (rest1.drop (k + 1)).length (rest1.drop (k + 1)) fuel
      ((rest1.drop (k + 1)).length + 1) le_rfl
      (by rw [List.length_drop]; omega) (by omega)]
  · intro hk
    rw [inlineGo_em_none fuel c rest1 hc hnd hk,
      inlineGo_congr rest1.length rest1 fuel (rest1.length + 1) le_rfl hfuel
        (by omega)]

theorem emphasis_single_delimiter_scan_witness :
    (inlineGo (7 + 1) ('*' :: ("a**b*x".data)) =
      "<em>".data ++ parse_inline (("a**b*x".data).take 4) ++ "</em>".data ++
        inlineGo ((("a**b*x".data).drop 5).length + 1) (("a**b*x".data).drop 5) ∧
     ("a**b*x".data)[4]? = some '*' ∧ ("a**b*x".data)[5]? ≠ some '*' ∧
     Even ((("a**b*x".data).take 4).count '*')) :=
  (emphasis_single_delimiter_scan 7 '*' ("a**b*x".data) (by decide) (by decide)
    (by decide)).1 4 (by decide)

/-- C3 (code bug): the dispatcher classifies the line `1.` as a list region
(digit head, dot present) but the list assembler's ordinal pattern demands
a space after the dot, so it consumes nothing and returns the same index;
the dispatcher then retries the same line forever.  The embedded main loop
returns `none` for every fuel — the Python loop never terminates — so
`parse_markdown` diverges on the finite input `1.`, against the claim. -/
theorem parse_markdown_diverges_on_bare_ordinal :
    (∀ fuel, mainLoop [("1.".data)] fuel 0 = none) ∧
    parse_markdown ("1.".data) = none := by
  have key : ∀ fuel, mainLoop [("1.".data)] fuel 0 = none := by
    intro fuel
    induction fuel with
    | zero => rfl
    | succ f ih =>
      have step : mainLoop [("1.".data)] (f + 1) 0 =
          (mainLoop [("1.".data)] f 0).map (fun bs => ([] : Str) :: bs) := rfl
      rw [step, ih]
      rfl
  exact ⟨key, by decide⟩

lemma findFenceIdx_first : ∀ (ls : List Str) (k : Nat), findFenceIdx ls = some k →
    ∀ j l, j < k → ls[j]? = some l → startsWithFence l = false := by
  intro ls
  induction ls with
  | nil => intro k h; simp [findFenceIdx] at h
  | cons x xs ih =>
    intro k h j l hj hl
    by_cases hx : startsWithFence x = true
    · simp [findFenceIdx, hx] at h
      omega
    · simp only [findFenceIdx, if_neg hx, Option.map_eq_some'] at h
      obtain ⟨k2, hk2, rfl⟩ := h
      cases j with
      | zero =>
        simp only [List.getElem?_cons_zero, Option.some.injEq] at hl
        subst hl
        simpa using hx
      | succ j2 =>
        exact ih k2 hk2 j2 l (by omega) (by simpa using hl)

/-- C6 (amended): the dispatcher recognizes a fenced code block exactly at
a line that itself starts with the triple-backtick token — leading
indentation is not stripped — and closes it at the nearest subsequent line
that also starts with the token, ignoring everything after the token on the
closing line: the emitted block and the resume point depend only on the
close line's index. -/
theorem fence_recognition (lines : List Str) (f i k : Nat) (line : Str)
    (hline : lines[i]? = some line)
    (hfence : startsWithFence line = true)
    (hclose : findFenceIdx (lines.drop (i + 1)) = some k) :
    mainLoop lines (f + 1) i =
      (mainLoop lines f (i + k + 2)).map
        (fun bs => codeBlockOf line ((lines.drop (i + 1)).take k) :: bs) ∧
    ∀ j l, j < k → (lines.drop (i + 1))[j]? = some l →
      startsWithFence l = false := by
  constructor
  · simp [mainLoop, hline, hfence, hclose]
  · exact findFenceIdx_first (lines.drop (i + 1)) k hclose

theorem fence_recognition_witness :
    mainLoop [("```py".data), ("x".data), ("``` tail".data), ("after".data)]
        (2 + 1) 0 =
      (mainLoop [("```py".data), ("x".data), ("``` tail".data), ("after".data)]
          2 (0 + 1 + 2)).map
        (fun bs => codeBlockOf ("```py".data)
          (([("```py".data), ("x".data), ("``` tail".data),
             ("after".data)].drop (0 + 1)).take 1) :: bs) :=
  (fence_recognition
    [("```py".data), ("x".data), ("``` tail".data), ("after".data)]
    2 0 1 ("```py".data) (by decide) (by decide) (by decide)).1

/-- C6 counterexample: the line `  ` ++ fence has a stripped-of-indent form
starting with the triple-backtick token, yet the dispatcher emits no code
block for the input — the three lines become one paragraph — so
recognition after stripping indentation, as claimed, is false. -/
theorem indented_fence_not_recognized :
    parse_markdown ("  ```\nx\n```".data) =
      some ("<p><code></code><code> x </code><code></code></p>".data) ∧
    containsSub ("<pre".data)
      ("<p><code></code><code> x </code><code></code></p>".data) = false := by
  constructor <;> decide

/-- C8 counterexample: on the claim's exact five-line input the emitted
fragment has no space between `c` and the nested list opening (the space in
the expected fragment of the spec comes from a trailing space that the
repository test's input has after `- c` but the claim's input lacks), so
the claimed substring does not occur in the output. -/
theorem nested_list_scenario_counterexample :
    parse_markdown ("- a\n- b\n- c\n  - nested1\n  - nested2".data) =
      some (("<ul><li>a</li><li>b</li><li>c<ul><li>nested1</li>" ++
             "<li>nested2</li></ul></li></ul>").data) ∧
    containsSub ("<li>c <ul><li>nested1</li><li>nested2</li></ul></li>".data)
      (("<ul><li>a</li><li>b</li><li>c<ul><li>nested1</li>" ++
        "<li>nested2</li></ul></li></ul>").data) = false := by
  constructor <;> decide

/-- C8 (amended): the five-line input produces exactly five list-item
elements, and the third item contains the nested list strictly inside it —
the fragment `<li>c<ul><li>nested1</li><li>nested2</li></ul></li>`, with no
space after `c` because the claim's input has no trailing space on the
`- c` line. -/
theorem nested_list_scenario :
    parse_markdown ("- a\n- b\n- c\n  - nested1\n  - nested2".data) =
      some (("<ul><li>a</li><li>b</li><li>c<ul><li>nested1</li>" ++
             "<li>nested2</li></ul></li></ul>").data) ∧
    containsSub ("<li>c<ul><li>nested1</li><li>nested2</li></ul></li>".data)
      (("<ul><li>a</li><li>b</li><li>c<ul><li>nested1</li>" ++
        "<li>nested2</li></ul></li></ul>").data) = true ∧
    countSub ("<li>".data)
      (("<ul><li>a</li><li>b</li><li>c<ul><li>nested1</li>" ++
        "<li>nested2</li></ul></li></ul>").data) = 5 ∧
    countSub ("</li>".data)
      (("<ul><li>a</li><li>b</li><li>c<ul><li>nested1</li>" ++
        "<li>nested2</li></ul></li></ul>").data) = 5 := by
  refine ⟨by decide, by decide, by decide, by decide⟩

/-- C7: when the line after a list item is more indented and is itself a
list item, the assembler emits the item element left open, splices the
recursively assembled sublist markup strictly between the item's
inline-formatted content and the item's closing tag, and resumes at the
index the recursive call returned — the nested list is never a following
sibling of the item. -/
theorem nested_list_inside_parent_item (lines : List Str) (f i : Nat)
    (stack : List (LType × Nat)) (line nl : Str) (lt : LType)
    (content nested restH : Str) (newI iEnd : Nat)
    (hget : lines[i]? = some line)
    (hblank : (stripWs line).isEmpty = false)
    (hcls : classify (lstripSp line) = some (lt, content))
    (hnl : lines[i + 1]? = some nl)
    (hind : line.length - (lstripSp line).length <
            nl.length - (lstripSp nl).length)
    (hlist : is_list_line (lstripSp nl) = true)
    (hnested : parse_listGo lines f (i + 1) [] = some (nested, newI))
    (hrest : parse_listGo lines f newI
        (openStack lt (line.length - (lstripSp line).length) stack) =
      some (restH, iEnd)) :
    parse_listGo lines (f + 1) i stack =
      some (openHtml lt (line.length - (lstripSp line).length) stack ++
              "<li>".data ++ parse_inline content ++ nested ++
              "</li>".data ++ restH, iEnd) := by
  have hn : hasNestedAt lines i line = true := by
    simp [hasNestedAt, hnl, hblank, hind, hlist]
  simp [parse_listGo, hget, hblank, hcls, hn, hnested, hrest]

theorem nested_list_inside_parent_item_witness :
    parse_listGo [("- c".data), ("  - n".data)] (3 + 1) 0 [] =
      some (openHtml LType.ul
              (("- c".data).length - (lstripSp ("- c".data)).length) [] ++
            "<li>".data ++ parse_inline ("c".data) ++
            ("<ul><li>n</li></ul>".data) ++ "</li>".data ++ ("</ul>".data),
            2) :=
  nested_list_inside_parent_item [("- c".data), ("  - n".data)] 3 0 []
    ("- c".data) ("  - n".data) LType.ul ("c".data)
    ("<ul><li>n</li></ul>".data) ("</ul>".data) 2 2
    (by decide) (by decide) (by decide) (by decide) (by decide) (by decide)
    (by decide) (by decide)

lemma hasNestedAt_congr (L1 L2 : List Str) (i : Nat) (l1 l2 : Str)
    (hl : lineView l1 = lineView l2)
    (hv : (L1[i + 1]?).map lineView = (L2[i + 1]?).map lineView) :
    hasNestedAt L1 i l1 = hasNestedAt L2 i l2 := by
  have e1 : (stripWs l1).isEmpty = (stripWs l2).isEmpty :=
    congrArg (fun v => v.1) hl
  have e2 : l1.length - (lstripSp l1).length = l2.length - (lstripSp l2).length :=
    congrArg (fun v => v.2.1) hl
  rcases hg1 : L1[i + 1]? with _ | nl1
  · rcases hg2 : L2[i + 1]? with _ | nl2
    · simp [hasNestedAt, hg1, hg2]
    · rw [hg1, hg2] at hv; simp at hv
  · rcases hg2 : L2[i + 1]? with _ | nl2
    · rw [hg1, hg2] at hv; simp at hv
    · rw [hg1, hg2] at hv
      simp only [Option.map_some'] at hv
      injection hv with hv
      have f2 : nl1.length - (lstripSp nl1).length =
          nl2.length - (lstripSp nl2).length := congrArg (fun v => v.2.1) hv
      have f4 : is_list_line (lstripSp nl1) = is_list_line (lstripSp nl2) :=
        congrArg (fun v => v.2.2.2) hv
      simp only [hasNestedAt, hg1, hg2]
      rw [e1, e2, f2, f4]

lemma parse_listGo_view_congr (L1 L2 : List Str)
    (hview : ∀ j : Nat, (L1[j]?).map lineView = (L2[j]?).map lineView) :
    ∀ f i stack, parse_listGo L1 f i stack = parse_listGo L2 f i stack := by
  intro f
  induction f with
  | zero => intro i stack; rfl
  | succ f ih =>
    intro i stack
    rcases hg1 : L1[i]? with _ | line1
    · have hg2 : L2[i]? = none := by
        have hj := hview i
        rw [hg1] at hj
        rcases hgg : L2[i]? with _ | l2
        · rfl
        · rw [hgg] at hj; simp at hj
      simp [parse_listGo, hg1, hg2]
    · have hj := hview i
      rw [hg1] at hj
      rcases hg2 : L2[i]? with _ | line2
      · rw [hg2] at hj; simp at hj
      · rw [hg2] at hj
        simp only [Option.map_some'] at hj
        injection hj with hj
        have e1 : (stripWs line1).isEmpty = (stripWs line2).isEmpty :=
          congrArg (fun v => v.1) hj
        have e2 : line1.length - (lstripSp line1).length =
            line2.length - (lstripSp line2).length :=
          congrArg (fun v => v.2.1) hj
        have e3 : classify (lstripSp line1) = classify (lstripSp line2) :=
          congrArg (fun v => v.2.2.1) hj
        have hnc : hasNestedAt L1 i line1 = hasNestedAt L2 i line2 :=
          hasNestedAt_congr L1 L2 i line1 line2 hj (hview (i + 1))
        simp only [parse_listGo, hg1, hg2]
        rw [e1]
        by_cases hb : (stripWs line2).isEmpty = true
        · rw [if_pos hb, if_pos hb]
        · rw [if_neg hb, if_neg hb, e3]
          rcases hcl : classify (lstripSp line2) with _ | ⟨lt, content⟩
          · rfl
          · rw [hnc, e2]
            simp only [ih]

lemma lstripSp_replicate (k : Nat) (t : Str) :
    lstripSp (List.replicate k ' ' ++ t) = lstripSp t := by
  induction k with
  | zero => rfl
  | succ k ih =>
    rw [List.replicate_succ, List.cons_append]
    show lstripP (fun c => c == ' ') (' ' :: (List.replicate k ' ' ++ t)) = _
    rw [lstripP, if_pos (by decide)]
    exact ih

lemma digit_facts (ch : Char) (h : isAsciiDigit ch = true) :
    (ch == ' ') = false ∧ (ch == '-') = false ∧ (ch == '*') = false ∧
    (ch == '+') = false := by
  simp only [isAsciiDigit, Bool.and_eq_true, decide_eq_true_eq] at h
  obtain ⟨h1, h2⟩ := h
  refine ⟨?_, ?_, ?_, ?_⟩ <;>
    · simp only [beq_eq_false_iff_ne]
      intro heq
      subst heq
      revert h1 h2
      decide

lemma takeWhile_all_append (p : Char → Bool) (d : Str) (q : Char) (t : Str)
    (hd : ∀ x ∈ d, p x = true) (hq : p q = false) :
    (d ++ q :: t).takeWhile p = d := by
  induction d with
  | nil => simp [List.takeWhile_cons, hq]
  | cons x d2 ih =>
    have hx : p x = true := hd x (by simp)
    simp [List.takeWhile_cons, hx, ih (fun y hy => hd y (by simp [hy]))]

lemma drop_len (a b : Str) : (a ++ b).drop a.length = b := by
  induction a with
  | nil => simp
  | cons x a2 ih => simp [ih]

lemma mem_lstripP (p : Char → Bool) (l : Str) (x : Char)
    (hx : x ∈ l) (hpx : p x = false) : x ∈ lstripP p l := by
  induction l with
  | nil => simp at hx
  | cons c t ih =>
    by_cases hc : p c = true
    · rw [lstripP, if_pos hc]
      rcases List.mem_cons.mp hx with rfl | hx2
      · rw [hc] at hpx; exact absurd hpx (by simp)
      · exact ih hx2
    · rw [lstripP, if_neg hc]
      exact hx

lemma mem_stripWs (l : Str) (x : Char) (hx : x ∈ l)
    (hpx : isPySpace x = false) : x ∈ stripWs l := by
  unfold stripWs rstripP
  have h1 : x ∈ lstripP isPySpace l := mem_lstripP isPySpace l x hx hpx
  have h2 : x ∈ (lstripP isPySpace l).reverse := by simpa using h1
  have h3 : x ∈ lstripP isPySpace (lstripP isPySpace l).reverse :=
    mem_lstripP isPySpace _ x h2 hpx
  simpa using h3

lemma lineView_ordinal (k : Nat) (d c : Str) (hne : d ≠ [])
    (hd : ∀ ch ∈ d, isAsciiDigit ch = true) :
    lineView (List.replicate k ' ' ++ (d ++ '.' :: ' ' :: c)) =
      (false, k, some (LType.ol, c), true) := by
  obtain ⟨dh, dt, rfl⟩ : ∃ dh dt, d = dh :: dt := by
    cases d with
    | nil => exact absurd rfl hne
    | cons dh dt => exact ⟨dh, dt, rfl⟩
  have hdh : isAsciiDigit dh = true := hd dh (by simp)
  obtain ⟨hsp, hdash, hstar, hplus⟩ := digit_facts dh hdh
  have hstrip : lstripSp (List.replicate k ' ' ++ ((dh :: dt) ++ '.' :: ' ' :: c)) =
      dh :: (dt ++ '.' :: ' ' :: c) := by
    rw [lstripSp_replicate]
    show lstripP (fun c => c == ' ') _ = _
    rw [List.cons_append, lstripP, if_neg (by simp [hsp])]
  have htake : (dh :: (dt ++ '.' :: ' ' :: c)).takeWhile isAsciiDigit = dh :: dt :=
    takeWhile_all_append isAsciiDigit (dh :: dt) '.' (' ' :: c) hd (by decide)
  have hord : ordinalSplit (dh :: (dt ++ '.' :: ' ' :: c)) = some c := by
    unfold ordinalSplit
    rw [htake, if_neg (by simp)]
    have hdrop : (dh :: (dt ++ '.' :: ' ' :: c)).drop (dh :: dt).length =
        '.' :: ' ' :: c := drop_len (dh :: dt) ('.' :: ' ' :: c)
    rw [hdrop]
    rfl
  have hbul : bulletStart (dh :: (dt ++ '.' :: ' ' :: c)) = false := by
    cases dt with
    | nil => simp [bulletStart, hdash, hstar, hplus]
    | cons d2 dt2 => simp [bulletStart, hdash, hstar, hplus]
  have hcls : classify (dh :: (dt ++ '.' :: ' ' :: c)) = some (LType.ol, c) := by
    simp [classify, hbul, hord]
  have hlist : is_list_line (dh :: (dt ++ '.' :: ' ' :: c)) = true := by
    simp [is_list_line, hbul, hord]
  have hmem : '.' ∈ stripWs (List.replicate k ' ' ++ ((dh :: dt) ++ '.' :: ' ' :: c)) :=
    mem_stripWs _ '.' (by simp) (by decide)
  unfold lineView
  rw [hstrip]
  simp only [Prod.mk.injEq]
  refine ⟨?_, ?_, by rw [hcls], by rw [hlist]⟩
  · rcases hsw : stripWs (List.replicate k ' ' ++ ((dh :: dt) ++ '.' :: ' ' :: c))
      with _ | ⟨a, b⟩
    · rw [hsw] at hmem; simp at hmem
    · rfl
  · simp only [List.length_append, List.length_replicate, List.length_cons]
    omega

lemma view_pointwise (x y : Str) (hxy : lineView x = lineView y) :
    ∀ (pre post : List Str) (j : Nat),
      ((pre ++ x :: post)[j]?).map lineView =
        ((pre ++ y :: post)[j]?).map lineView := by
  intro pre
  induction pre with
  | nil =>
    intro post j
    cases j with
    | zero => simp [hxy]
    | succ j2 => simp
  | cons p pre2 ih =>
    intro post j
    cases j with
    | zero => simp
    | succ j2 => simpa using ih post j2

/-- C10: the numeral of an ordered-list item line is discarded by the list
assembler — replacing it with any other non-empty digit run at the same
indentation yields character-for-character identical assembler output (so
in particular no start or value attribute derived from it is ever
emitted). -/
theorem ordinal_numeral_ignored (pre post : List Str) (k : Nat) (c d1 d2 : Str)
    (h1ne : d1 ≠ []) (h1d : ∀ ch ∈ d1, isAsciiDigit ch = true)
    (h2ne : d2 ≠ []) (h2d : ∀ ch ∈ d2, isAsciiDigit ch = true)
    (fuel i : Nat) (stack : List (LType × Nat)) :
    parse_listGo (pre ++ (List.replicate k ' ' ++ (d1 ++ '.' :: ' ' :: c)) :: post)
        fuel i stack =
      parse_listGo (pre ++ (List.replicate k ' ' ++ (d2 ++ '.' :: ' ' :: c)) :: post)
        fuel i stack := by
  apply parse_listGo_view_congr
  intro j
  apply view_pointwise
  rw [lineView_ordinal k d1 c h1ne h1d, lineView_ordinal k d2 c h2ne h2d]

theorem ordinal_numeral_ignored_witness :
    parse_listGo ([] ++ (List.replicate 0 ' ' ++ ("7".data ++ '.' :: ' ' ::
        ("x".data))) :: []) 3 0 [] =
      parse_listGo ([] ++ (List.replicate 0 ' ' ++ ("1".data ++ '.' :: ' ' ::
        ("x".data))) :: []) 3 0 [] :=
  ordinal_numeral_ignored [] [] 0 ("x".data) ("7".data) ("1".data)
    (by decide) (by decide) (by decide) (by decide) 3 0 []

theorem parse_markdown_output_safe_witness :
    SafeH (("<h1>T</h1>\n<p>x &lt;&amp;&gt; &quot;q&quot;</p>").data) :=
  parse_markdown_output_safe (("# T\n\nx <&> \"q\"").data)
    (("<h1>T</h1>\n<p>x &lt;&amp;&gt; &quot;q&quot;</p>").data) (by decide)
